import Mathlib

/-!
Verification development for the wordle-tool solver core.

Words are modelled as lists of characters.  JavaScript objects keyed by
letters are modelled as insertion-ordered association lists (a JS object
holds each key once; updates keep the key in place, new keys are appended).
JavaScript `Set`s of numbers are modelled as insertion-ordered duplicate-free
lists.  Numeric scores are modelled exactly over the rationals, with the
literal 1.1 rendered as 11/10; all score comparisons the program performs are
between values produced by the same arithmetic, so the order facts proved
here are those of the source's comparisons.
-/

namespace WordleTool

/-- A word: in the program a five-letter lowercase string. -/
abbrev Word := List Char

/-- Source `countOccurrences(string, character)`: the number of occurrences of
a single letter in a word (the source counts the matches of a one-letter
global regex, which for a plain letter is exactly its occurrence count). -/
def countOccurrences (w : Word) (c : Char) : Nat := w.count c

/-- Look a letter up in an association list, with a default (JS `m[c] ?? d`). -/
def lookupD : List (Char × α) → Char → α → α
  | [], _, d => d
  | (k, v) :: rest, c, d => if k = c then v else lookupD rest c d

/-- JS `m[c] = (m[c] ?? 0) + 1` on an object: bump the count stored for a
letter, keeping insertion order, appending the key if it is new. -/
def bumpCount : List (Char × Nat) → Char → List (Char × Nat)
  | [], c => [(c, 1)]
  | (k, v) :: rest, c =>
    if k = c then (k, v + 1) :: rest else (k, v) :: bumpCount rest c

/-- Source `countLetters(word)`: per-letter occurrence counts of a word, in
first-appearance order. -/
def countLetters (w : Word) : List (Char × Nat) := w.foldl bumpCount []

/-- One scoring-table row after one word: the source does `row[i] ??= 0` and
adds 1 at every index `i < occurrences`, always touching indices 0..3, so a
row always has exactly the four entries produced here. -/
def rowStep (row : List Nat) (occ : Nat) : List Nat :=
  (List.range 4).map (fun i => row.getD i 0 + if i < occ then 1 else 0)

/-- Update the scoring-table entry of one letter (`letters[letter] ??= []`
followed by the index loop): the key keeps its place, new keys are appended. -/
def updateRow : List (Char × List Nat) → Char → Nat → List (Char × List Nat)
  | [], c, occ => [(c, rowStep [] occ)]
  | (k, r) :: rest, c, occ =>
    if k = c then (k, rowStep r occ) :: rest else (k, r) :: updateRow rest c occ

/-- Source `scoreLetters(words)`: accumulate, per letter and per occurrence
threshold 0..3, the number of words with more than that many copies, then
replace every entry strictly above half the word-list size by its complement.
The JS test `score > effectiveCount / 2` on integers is rendered exactly as
`effectiveCount < 2 * score`. -/
def scoreLetters (words : List Word) : List (Char × List Nat) :=
  let tbl := words.foldl
    (fun t w => (countLetters w).foldl (fun t p => updateRow t p.1 p.2) t) []
  tbl.map (fun p =>
    (p.1, p.2.map (fun s => if words.length < s * 2 then words.length - s else s)))

/-- Source `letters[letter]?.[count - 1] ?? 0`: the table value a letter with
a given occurrence count contributes to a word's base score.  A letter absent
from the table, or an index beyond the end of its row, yields 0. -/
def letterContribution (letters : List (Char × List Nat)) (c : Char) (count : Nat) : Nat :=
  (lookupD letters c []).getD (count - 1) 0

/-- Source `scoreWord(word, letters, validWords)`: sum the per-letter table
contributions; a word that is itself a possible solution gets the bonus
`base * 1.1 + 1` (rendered exactly as `base * (11/10) + 1` over ℚ). -/
def scoreWord (word : Word) (letters : List (Char × List Nat))
    (validWords : List Word) : ℚ :=
  let baseScore : Nat :=
    ((countLetters word).map (fun p => letterContribution letters p.1 p.2)).sum
  if word ∈ validWords then (baseScore : ℚ) * (11 / 10) + 1 else (baseScore : ℚ)

/-- Source `scoreWords(word, threadLetterScores, threadWords)`: the sum of the
word's scores against every board's own word list and letter table (the
caller always passes lists of equal length, rendered here by zipping). -/
def scoreWords (word : Word) (threadLetterScores : List (List (Char × List Nat)))
    (threadWords : List (List Word)) : ℚ :=
  ((threadWords.zip threadLetterScores).map (fun p => scoreWord word p.2 p.1)).sum

/-- Source `chooseWord(threadWords, guessPool)`: build each board's letter
table, then reduce the guess pool keeping the running best only while it
scores strictly higher than the next word.  JS `reduce` on an empty pool
throws; that unreachable case is rendered as the empty word. -/
def chooseWord (threadWords : List (List Word)) (guessPool : List Word) : Word :=
  let tls := threadWords.map scoreLetters
  match guessPool with
  | [] => []
  | p :: rest =>
    rest.foldl
      (fun best next =>
        if scoreWords best tls threadWords > scoreWords next tls threadWords
        then best else next) p

/-- The reduce step of `chooseWord` isolated over an arbitrary score
function: keep the running best only while it scores strictly higher than
the next pool word. -/
def pickBest (f : Word → ℚ) (a : Word) (l : List Word) : Word :=
  l.foldl (fun b n => if f b > f n then b else n) a

/-- Source `LetterResult` (part_001 names): PERFECT = correct position,
CLOSE = present but misplaced, WRONG = absent. -/
inductive LetterResult where
  | PERFECT
  | CLOSE
  | WRONG
deriving DecidableEq, Repr

/-- Bump a letter's entry in a total-function rendering of the JS counting
object `letterOccurrences` (all lookups default to 0, as `?? 0` does). -/
def bumpFn (occ : Char → Nat) (c : Char) : Char → Nat :=
  fun x => if x = c then occ c + 1 else occ x

/-- First pass of the evaluator: for every position where guess and solution
differ, count the solution letter as an unclaimed occurrence.  The source
loops over the five indices; for five-letter inputs this is the fold over the
pairwise zip. -/
def unclaimedOccurrences (guess solution : Word) : Char → Nat :=
  (guess.zip solution).foldl
    (fun occ p => if p.1 ≠ p.2 then bumpFn occ p.2 else occ) (fun _ => 0)

/-- Second pass of the evaluator, over the zipped positions: emit PERFECT on
a positional match, otherwise claim an unclaimed occurrence of the guessed
letter with CLOSE (JS truthiness of a count is its being nonzero), otherwise
WRONG. -/
def secondPass : List (Char × Char) → (Char → Nat) → List LetterResult
  | [], _ => []
  | (g, s) :: rest, occ =>
    if g = s then .PERFECT :: secondPass rest occ
    else if occ g ≠ 0 then
      .CLOSE :: secondPass rest (fun x => if x = g then occ g - 1 else occ x)
    else .WRONG :: secondPass rest occ

/-- Source `makeGuess(guess, solution)` of part_001 (`testGuess` in part_000):
the two-pass duplicate-safe feedback evaluator.  The source iterates the five
positions of its five-letter inputs, rendered here by zipping. -/
def makeGuess (guess solution : Word) : List LetterResult :=
  secondPass (guess.zip solution) (unclaimedOccurrences guess solution)

/-- Constraint record `Known` of the source, with JS objects as association
lists and the `Set<number>` of excluded positions as a duplicate-free list. -/
structure Known where
  fixed : List Char
  good : List (Char × Nat)
  bad : List (Char × Nat)
  badPositions : List (Char × List Nat)
  guessResult : List Char
  solved : Bool
deriving DecidableEq, Repr

/-- Contents of JS `new Set(s).add(i)`: the element is appended when absent
(`Set` iteration follows insertion order). -/
def addPos (s : List Nat) (i : Nat) : List Nat := if i ∈ s then s else s ++ [i]

/-- JS `newBad.add(letter)` on a `Set<string>`. -/
def addBad (s : List Char) (c : Char) : List Char := if c ∈ s then s else s ++ [c]

/-- JS spread `{...m, [c]: v}`: an existing key keeps its place with the new
value, a new key is appended. -/
def overrideKey : List (Char × α) → Char → α → List (Char × α)
  | [], c, v => [(c, v)]
  | (k, w) :: rest, c, v =>
    if k = c then (k, v) :: rest else (k, w) :: overrideKey rest c v

/-- Worker for the iteration order of JS `new Set(array)`: elements already
seen are skipped, first occurrences are kept in order. -/
def dedupFirstAux : List Char → List Char → List Char
  | _, [] => []
  | seen, c :: rest =>
    if c ∈ seen then dedupFirstAux seen rest
    else c :: dedupFirstAux (c :: seen) rest

/-- Iteration order of JS `new Set(array)`: first occurrences, in order. -/
def dedupFirst (l : List Char) : List Char := dedupFirstAux [] l

/-- Accumulator of the per-position loop of `updateKnown`: the fixed pattern
being rebuilt, this round's good counts, this round's bad letters, and the
carried-forward excluded positions and rendered-guess string. -/
structure UpdAcc where
  knownFixed : List Char
  newGood : List (Char × Nat)
  newBad : List Char
  badPositions : List (Char × List Nat)
  guessResult : List Char
deriving DecidableEq, Repr

/-- Per-position loop of `updateKnown`, position index carried explicitly
(the source iterates `response.entries()` reading `guess[i]` and
`oldFixed[i]`; the out-of-range defaults are never reached on the
five-letter inputs of the claims). -/
def updateLoop (guess oldFixed : List Char) : Nat → List LetterResult → UpdAcc → UpdAcc
  | _, [], acc => acc
  | i, r :: rest, acc =>
    let nextLetter := guess.getD i '*'
    match r with
    | .PERFECT => updateLoop guess oldFixed (i + 1) rest
        { acc with
          guessResult := acc.guessResult ++ ['🟩'],
          newGood := bumpCount acc.newGood nextLetter,
          knownFixed := acc.knownFixed ++ [nextLetter] }
    | .CLOSE => updateLoop guess oldFixed (i + 1) rest
        { acc with
          guessResult := acc.guessResult ++ ['🟨'],
          newGood := bumpCount acc.newGood nextLetter,
          badPositions := overrideKey acc.badPositions nextLetter
            (addPos (lookupD acc.badPositions nextLetter []) i),
          knownFixed := acc.knownFixed ++ [oldFixed.getD i '*'] }
    | .WRONG => updateLoop guess oldFixed (i + 1) rest
        { acc with
          guessResult := acc.guessResult ++ ['🟥'],
          newBad := addBad acc.newBad nextLetter,
          knownFixed := acc.knownFixed ++ [oldFixed.getD i '*'] }

/-- The `goodLetters` merge of `updateKnown`: over the union of the previous
and this-round key sets (JS `new Set` of the concatenated key arrays, in
first-occurrence order), each letter maps to the maximum of its previous and
this-round counts (absent defaulting to 0). -/
def mergeGood (oldGood newGood : List (Char × Nat)) : List (Char × Nat) :=
  (dedupFirst (oldGood.map Prod.fst ++ newGood.map Prod.fst)).map
    (fun l => (l, max (lookupD oldGood l 0) (lookupD newGood l 0)))

/-- The `badLetters` spread of `updateKnown`, JS `{...oldBad, ...newEntries}`:
previous keys keep their place, a key also newly marked bad is overridden
with `goodLetters[letter] + 1`, and newly bad letters not previously bounded
are appended with that bound. -/
def mergeBad (oldBad : List (Char × Nat)) (newBad : List Char)
    (goodLetters : List (Char × Nat)) : List (Char × Nat) :=
  oldBad.map (fun p =>
    (p.1, if p.1 ∈ newBad then lookupD goodLetters p.1 0 + 1 else p.2)) ++
  (newBad.filter (fun l => decide (l ∉ oldBad.map Prod.fst))).map
    (fun l => (l, lookupD goodLetters l 0 + 1))

/-- The fixed pattern produced by the per-position loop of `updateKnown`:
a PERFECT position takes the guess letter, every other position carries the
previous fixed character forward. -/
def buildFixed (guess oldFixed : List Char) : Nat → List LetterResult → List Char
  | _, [] => []
  | i, r :: rest =>
    (match r with
     | LetterResult.PERFECT => guess.getD i '*'
     | _ => oldFixed.getD i '*') :: buildFixed guess oldFixed (i + 1) rest

/-- Source `updateKnown(guess, response, previous)` of part_001: run the
per-position loop, then merge this round's good counts with the previous ones
by per-letter maximum over the union of the key sets, rebuild the bad bounds
as `good + 1` for the letters newly marked bad while retaining the other
previous bounds, and mark the state solved when every result is PERFECT. -/
def updateKnown (guess : Word) (response : List LetterResult) (prev : Known) : Known :=
  let acc := updateLoop guess prev.fixed 0 response
    { knownFixed := [], newGood := [], newBad := [],
      badPositions := prev.badPositions, guessResult := prev.guessResult }
  let goodLetters := mergeGood prev.good acc.newGood
  let badLetters := mergeBad prev.bad acc.newBad goodLetters
  { fixed := acc.knownFixed,
    good := goodLetters,
    bad := badLetters,
    badPositions := acc.badPositions,
    guessResult := acc.guessResult ++ [' '] ++ guess ++ ['\n'],
    solved := response.all (fun r => decide (r = .PERFECT)) }

/-- Source `nothingKnown()`. -/
def nothingKnown : Known :=
  { fixed := ['.', '.', '.', '.', '.'], good := [], bad := [],
    badPositions := [], guessResult := [], solved := false }

/-- A reachable constraint state (one confirmed letter, one absent letter
whose bound is its good count plus one), used as a concrete instance. -/
def sampleKnown : Known :=
  { fixed := "c....".toList, good := [('c', 1), ('e', 1)], bad := [('e', 2)],
    badPositions := [], guessResult := [], solved := false }

/-- A constraint state carrying a bad bound larger than `good + 1`; no run
of the tracker produces it, but it is a legal value of the record type. -/
def badBoundKnown : Known :=
  { fixed := ".....".toList, good := [], bad := [('e', 5)],
    badPositions := [], guessResult := [], solved := false }

/-- Matching of a regex made only of literal characters and `.` wildcards
against a word, starting at the current position: every pattern character
must consume one word character. -/
def patMatch : List Char → List Char → Bool
  | [], _ => true
  | _ :: _, [] => false
  | p :: ps, c :: cs => (p = '.' || p = c) && patMatch ps cs

/-- Source `new RegExp(known.fixed).test(word)`: an unanchored search, so the
pattern may start at any position of the word.  The `fixed` patterns the
program builds consist only of lowercase letters and `.`, which is the regex
fragment modelled by `patMatch`. -/
def regexTest (pattern : List Char) : List Char → Bool
  | [] => patMatch pattern []
  | c :: rest => patMatch pattern (c :: rest) || regexTest pattern rest

/-- Source `filterWords(words, known)`: keep the words that pass the fixed
pattern, the minimum counts of `good`, the exclusive upper bounds of `bad`,
and the excluded positions of `badPositions` (JS `word[position] !== letter`
is true for an out-of-range position, rendered with `List.get?`). -/
def filterWords (words : List Word) (known : Known) : List Word :=
  words.filter (fun word =>
    regexTest known.fixed word &&
    known.good.all (fun p => decide (p.2 ≤ countOccurrences word p.1)) &&
    known.bad.all (fun p => decide (countOccurrences word p.1 < p.2)) &&
    known.badPositions.all (fun p =>
      p.2.all (fun pos => decide (word.get? pos ≠ some p.1))))

/-- Round guess pool of the NORMAL mode of part_001: under the hard-mode
flag, or once `roundNumber >= roundCount - wordsToGuess`, the pool is the
concatenation of the boards' candidate lists, otherwise the full dictionary.
The JS comparison is over possibly negative integers, rendered in ℤ. -/
def guessPoolFor (hardMode : Bool) (roundNumber roundCount : Nat)
    (threadKnown : List Known) (threadWords : List (List Word))
    (allWords : List Word) : List Word :=
  let wordsToGuess := (threadKnown.filter (fun k => !k.solved)).length
  if hardMode || decide ((roundNumber : ℤ) ≥ (roundCount : ℤ) - (wordsToGuess : ℤ))
  then threadWords.flatten else allWords

/-- Index-carrying loop of `roundUpdateKnown` (the source maps over
`threadKnown` with the index selecting `solutions[i]`). -/
def roundUpdateKnownGo (guess : Word) (solutions : List Word) :
    Nat → List Known → List Known
  | _, [] => []
  | i, known :: rest =>
    (if known.solved then known
     else updateKnown guess (makeGuess guess (solutions.getD i [])) known)
      :: roundUpdateKnownGo guess solutions (i + 1) rest

/-- One round's update of every board's constraint state in the NORMAL mode
of part_001 (simulation: feedback comes from each board's own solution):
a board already solved is returned unchanged, every other board receives the
shared guess's feedback through `updateKnown`. -/
def roundUpdateKnown (guess : Word) (solutions : List Word)
    (threadKnown : List Known) : List Known :=
  roundUpdateKnownGo guess solutions 0 threadKnown

/-- Index-carrying loop of `roundUpdateWords`; the `process.exit` the source
performs on an emptied candidate list is rendered as an `Except.error`
carrying the board's index and constraint state, aborting at the first such
board in order. -/
def roundUpdateWordsGo (newKnown : List Known) :
    Nat → List (List Word) → Except (Nat × Known) (List (List Word))
  | _, [] => .ok []
  | i, words :: rest =>
    let k := newKnown.getD i nothingKnown
    if k.solved then
      (roundUpdateWordsGo newKnown (i + 1) rest).map (fun ws => [] :: ws)
    else
      let remainingWords := filterWords words k
      if remainingWords.isEmpty then .error (i, k)
      else (roundUpdateWordsGo newKnown (i + 1) rest).map
        (fun ws => remainingWords :: ws)

/-- One round's update of every board's candidate list in the NORMAL mode of
part_001: a solved board's list becomes empty, an unsolved board's list is
filtered and an empty filtered list is the fatal contradiction. -/
def roundUpdateWords (threadWords : List (List Word)) (newKnown : List Known) :
    Except (Nat × Known) (List (List Word)) :=
  roundUpdateWordsGo newKnown 0 threadWords

/-- Observable outcome of one NORMAL-mode session in simulation mode. -/
inductive SessionOutcome where
  | usageError
  | unknownWord (w : Word)
  | won (finalKnown : List Known)
  | lost (finalKnown : List Known)
  | contradiction (board : Nat) (k : Known)
deriving DecidableEq, Repr

/-- Round loop of the NORMAL mode of part_001 in simulation mode, structural
on the number of rounds still to play (`roundNumber = roundCount -
remaining`): choose the shared guess from the round's pool, update every
board, stop with a win as soon as all boards are solved, abort on a
contradiction, and report a loss when the budget runs out unsolved. -/
def playRounds (allWords : List Word) (solutions : List Word) (hardMode : Bool)
    (roundCount : Nat) : Nat → List Known → List (List Word) → SessionOutcome
  | 0, threadKnown, _ =>
    if threadKnown.all (fun k => k.solved) then .won threadKnown
    else .lost threadKnown
  | remaining + 1, threadKnown, threadWords =>
    let roundNumber := roundCount - (remaining + 1)
    let guessPool :=
      guessPoolFor hardMode roundNumber roundCount threadKnown threadWords allWords
    let guess := chooseWord threadWords guessPool
    let newKnown := roundUpdateKnown guess solutions threadKnown
    if newKnown.all (fun k => k.solved) then .won newKnown
    else
      match roundUpdateWords threadWords newKnown with
      | .error e => .contradiction e.1 e.2
      | .ok newWords =>
        playRounds allWords solutions hardMode roundCount remaining newKnown newWords

/-- NORMAL-mode session of part_001 with solutions supplied (simulation,
neither `--free` nor `--random`): the argument-count check, then the
unknown-solution check (JS skips falsy, i.e. empty, entries and exits at the
first offender), then the boards are created and the round loop runs. -/
def runNormalSimulation (allWords : List Word) (solutions : List Word)
    (hardMode : Bool) (roundCount threadCount : Nat) : SessionOutcome :=
  if solutions.length ≠ 0 ∧ solutions.length ≠ threadCount then .usageError
  else
    match solutions.find? (fun s => !s.isEmpty && decide (s ∉ allWords)) with
    | some w => .unknownWord w
    | none =>
      let threadKnown := List.replicate threadCount nothingKnown
      let threadWords := List.replicate threadCount allWords
      playRounds allWords solutions hardMode roundCount roundCount
        threadKnown threadWords

/-- Heap-modelled variant of `Known` for the aliasing analysis of
`updateKnown`: the `Set<number>` objects of `badPositions` live in a store
of allocated cells, and the map holds cell indices instead of contents. -/
structure KnownS where
  fixed : List Char
  good : List (Char × Nat)
  bad : List (Char × Nat)
  badPositions : List (Char × Nat)
  guessResult : List Char
  solved : Bool
deriving DecidableEq, Repr

/-- Accumulator of the store-passing per-position loop. -/
structure UpdAccS where
  knownFixed : List Char
  newGood : List (Char × Nat)
  newBad : List Char
  badPositions : List (Char × Nat)
  guessResult : List Char
  store : List (List Nat)
deriving DecidableEq, Repr

/-- Cell index held for a letter, JS `badPositions[nextLetter]` (absent keys
give `undefined`, turning `new Set(undefined)` into the empty set). -/
def lookupId (m : List (Char × Nat)) (c : Char) : Option Nat :=
  (m.find? (fun p => decide (p.1 = c))).map Prod.snd

/-- Store-passing per-position loop of `updateKnown`: the CLOSE branch
renders `new Set(badPositions[nextLetter]).add(i)` exactly as the source
performs it — a fresh cell is allocated holding a copy of the old contents
plus the position, and the map is overridden to the fresh cell; no existing
cell is ever written. -/
def updateLoopS (guess oldFixed : List Char) : Nat → List LetterResult → UpdAccS → UpdAccS
  | _, [], acc => acc
  | i, r :: rest, acc =>
    let nextLetter := guess.getD i '*'
    match r with
    | .PERFECT => updateLoopS guess oldFixed (i + 1) rest
        { acc with
          guessResult := acc.guessResult ++ ['🟩'],
          newGood := bumpCount acc.newGood nextLetter,
          knownFixed := acc.knownFixed ++ [nextLetter] }
    | .CLOSE =>
      let contents := match lookupId acc.badPositions nextLetter with
        | some id => acc.store.getD id []
        | none => []
      updateLoopS guess oldFixed (i + 1) rest
        { acc with
          guessResult := acc.guessResult ++ ['🟨'],
          newGood := bumpCount acc.newGood nextLetter,
          badPositions := overrideKey acc.badPositions nextLetter acc.store.length,
          knownFixed := acc.knownFixed ++ [oldFixed.getD i '*'],
          store := acc.store ++ [addPos contents i] }
    | .WRONG => updateLoopS guess oldFixed (i + 1) rest
        { acc with
          guessResult := acc.guessResult ++ ['🟥'],
          newBad := addBad acc.newBad nextLetter,
          knownFixed := acc.knownFixed ++ [oldFixed.getD i '*'] }

/-- Store-passing `updateKnown`: identical to `updateKnown` except that the
excluded-position sets are store cells, so that aliasing with the previous
state is observable.  Returns the new state and the extended store. -/
def updateKnownS (guess : Word) (response : List LetterResult) (prev : KnownS)
    (store : List (List Nat)) : KnownS × List (List Nat) :=
  let acc := updateLoopS guess prev.fixed 0 response
    { knownFixed := [], newGood := [], newBad := [],
      badPositions := prev.badPositions, guessResult := prev.guessResult,
      store := store }
  let goodLetters := mergeGood prev.good acc.newGood
  let badLetters := mergeBad prev.bad acc.newBad goodLetters
  ({ fixed := acc.knownFixed,
     good := goodLetters,
     bad := badLetters,
     badPositions := acc.badPositions,
     guessResult := acc.guessResult ++ [' '] ++ guess ++ ['\n'],
     solved := response.all (fun r => decide (r = .PERFECT)) },
   acc.store)

/-- C6: applying the candidate filter twice with the same constraint state
yields the same result as applying it once, and the filter is
order-preserving: its output is a sublist of its input (purity is inherent in
the functional model: `filterWords` is a function of its two arguments). -/
theorem filterWords_idempotent_orderPreserving (words : List Word) (known : Known) :
    filterWords (filterWords words known) known = filterWords words known ∧
    List.Sublist (filterWords words known) words := by
  constructor
  · unfold filterWords
    rw [List.filter_filter]
    congr 1
    funext w
    rw [Bool.and_self]
  · exact List.filter_sublist words

theorem rowStep_length (row : List Nat) (occ : Nat) : (rowStep row occ).length = 4 := by
  simp [rowStep]

theorem updateRow_rows : ∀ (tbl : List (Char × List Nat)) (c : Char) (occ : Nat),
    (∀ p ∈ tbl, p.2.length = 4) → ∀ p ∈ updateRow tbl c occ, p.2.length = 4
  | [], c, occ, _, p, hp => by
    simp only [updateRow, List.mem_singleton] at hp
    simp [hp, rowStep_length]
  | (k, r) :: rest, c, occ, h, p, hp => by
    simp only [updateRow] at hp
    split at hp
    · rcases List.mem_cons.mp hp with h1 | h1
      · simp [h1, rowStep_length]
      · exact h p (List.mem_cons_of_mem _ h1)
    · rcases List.mem_cons.mp hp with h1 | h1
      · exact h p (by simp [h1])
      · exact updateRow_rows rest c occ (fun q hq => h q (List.mem_cons_of_mem _ hq)) p h1

theorem foldlUpdateRow_rows (ps : List (Char × Nat)) :
    ∀ (tbl : List (Char × List Nat)), (∀ p ∈ tbl, p.2.length = 4) →
    ∀ p ∈ ps.foldl (fun t q => updateRow t q.1 q.2) tbl, p.2.length = 4 := by
  induction ps with
  | nil => intro tbl h; exact h
  | cons q ps ih => intro tbl h; exact ih _ (updateRow_rows tbl q.1 q.2 h)

theorem scoreLetters_rows (words : List Word) :
    ∀ p ∈ scoreLetters words, p.2.length = 4 := by
  have hacc : ∀ (ws : List Word) (tbl : List (Char × List Nat)),
      (∀ p ∈ tbl, p.2.length = 4) →
      ∀ p ∈ ws.foldl
        (fun t w => (countLetters w).foldl (fun t p => updateRow t p.1 p.2) t) tbl,
        p.2.length = 4 := by
    intro ws
    induction ws with
    | nil => intro tbl h; exact h
    | cons w ws ih => intro tbl h; exact ih _ (foldlUpdateRow_rows _ _ h)
  intro p hp
  simp only [scoreLetters, List.mem_map] at hp
  obtain ⟨q, hq, rfl⟩ := hp
  simp [hacc words [] (by simp) q hq]

theorem lookupD_of_not_mem (tbl : List (Char × α)) (c : Char) (d : α)
    (h : c ∉ tbl.map Prod.fst) : lookupD tbl c d = d := by
  induction tbl with
  | nil => rfl
  | cons p rest ih =>
    obtain ⟨k, v⟩ := p
    simp only [List.map_cons, List.mem_cons] at h
    push_neg at h
    simp only [lookupD]
    rw [if_neg (fun hk => h.1 hk.symm)]
    exact ih h.2

theorem lookupD_mem_or (tbl : List (Char × α)) (c : Char) (d : α) :
    lookupD tbl c d = d ∨ (c, lookupD tbl c d) ∈ tbl := by
  induction tbl with
  | nil => exact Or.inl rfl
  | cons p rest ih =>
    obtain ⟨k, v⟩ := p
    by_cases hk : k = c
    · subst hk
      simp [lookupD]
    · simp only [lookupD, if_neg hk]
      rcases ih with h | h
      · exact Or.inl h
      · exact Or.inr (List.mem_cons_of_mem _ h)

/-- C5 (amended): a letter occurring more often than the four-slot letter
table covers contributes 0 to the word's value (the source's `?? 0` default
applies past the end of a table row, with no clamping), and a letter absent
from the table also contributes 0. -/
theorem letterContribution_overflow (ws : List Word)
    (letters : List (Char × List Nat)) (L : Char) (k : Nat) :
    (5 ≤ k → letterContribution (scoreLetters ws) L k = 0) ∧
    (L ∉ letters.map Prod.fst → letterContribution letters L k = 0) := by
  constructor
  · intro hk
    unfold letterContribution
    rcases lookupD_mem_or (scoreLetters ws) L ([] : List Nat) with h | h
    · rw [h]
      simp
    · have hlen : (lookupD (scoreLetters ws) L []).length = 4 := scoreLetters_rows ws _ h
      apply List.getD_eq_default
      omega
  · intro hL
    unfold letterContribution
    rw [lookupD_of_not_mem _ _ _ hL]
    simp

/-- C5 witness: a word with five copies of a letter scores 0 from that
letter, and a letter absent from a table contributes 0. -/
theorem letterContribution_overflow_witness :
    letterContribution (scoreLetters ["aaaaa".toList]) 'a' 5 = 0 ∧
    letterContribution [('b', [1, 2, 3, 4])] 'z' 1 = 0 :=
  ⟨(letterContribution_overflow ["aaaaa".toList] [] 'a' 5).1 (by decide),
   (letterContribution_overflow [] [('b', [1, 2, 3, 4])] 'z' 1).2 (by decide)⟩

/-- C5 counterexample: against the table built from the word list
["aaaaa", "bcdef", "bcdef", "bcdef"], whose row for 'a' holds 1 at index 3,
the word "aaaaa" (five copies of 'a', not a candidate) is valued 0 by the
ranker, not the index-3 entry 1 the claim predicts. -/
theorem scoreWord_no_clamp_cex :
    scoreWord "aaaaa".toList
        (scoreLetters ["aaaaa".toList, "bcdef".toList, "bcdef".toList, "bcdef".toList])
        [] = 0 ∧
    (lookupD
        (scoreLetters ["aaaaa".toList, "bcdef".toList, "bcdef".toList, "bcdef".toList])
        'a' []).getD 3 0 = 1 := by
  constructor
  · decide
  · decide

theorem pickBest_spec (f : Word → ℚ) :
    ∀ (l : List Word) (a : Word),
      (∀ w ∈ a :: l, f w ≤ f (pickBest f a l)) ∧
      ((a :: l).filter (fun w => decide (f w = f (pickBest f a l)))).getLast?
        = some (pickBest f a l) := by
  intro l
  induction l with
  | nil =>
    intro a
    refine ⟨fun w hw => ?_, by simp [pickBest]⟩
    rw [List.mem_singleton.mp hw]
    simp [pickBest]
  | cons w l ih =>
    intro a
    by_cases hc : f a > f w
    · obtain ⟨ih1, ih2⟩ := ih a
      have hfold : pickBest f a (w :: l) = pickBest f a l := by
        simp only [pickBest, List.foldl_cons, if_pos hc]
      have har : f a ≤ f (pickBest f a l) := ih1 a (List.mem_cons_self _ _)
      have hwne : ¬ (f w = f (pickBest f a l)) :=
        ne_of_lt (lt_of_lt_of_le hc har)
      constructor
      · intro x hx
        rw [hfold]
        rcases List.mem_cons.mp hx with rfl | hx
        · exact har
        rcases List.mem_cons.mp hx with rfl | hx
        · exact le_trans (le_of_lt hc) har
        · exact ih1 x (List.mem_cons_of_mem _ hx)
      · rw [hfold]
        have hstep : List.filter (fun x => decide (f x = f (pickBest f a l))) (a :: w :: l)
            = List.filter (fun x => decide (f x = f (pickBest f a l))) (a :: l) := by
          simp [List.filter_cons, hwne]
        rw [hstep]
        exact ih2
    · obtain ⟨ih1, ih2⟩ := ih w
      have hfold : pickBest f a (w :: l) = pickBest f w l := by
        simp only [pickBest, List.foldl_cons, if_neg hc]
      have haw : f a ≤ f w := le_of_not_lt hc
      have hwr : f w ≤ f (pickBest f w l) := ih1 w (List.mem_cons_self _ _)
      constructor
      · intro x hx
        rw [hfold]
        rcases List.mem_cons.mp hx with rfl | hx
        · exact le_trans haw hwr
        · exact ih1 x hx
      · rw [hfold]
        by_cases hfa : f a = f (pickBest f w l)
        · have hfww : f w = f (pickBest f w l) := le_antisymm hwr (hfa ▸ haw)
          have h1 : List.filter (fun x => decide (f x = f (pickBest f w l))) (a :: w :: l)
              = a :: w :: List.filter (fun x => decide (f x = f (pickBest f w l))) l := by
            simp [List.filter_cons, hfa, hfww]
          have h2 : List.filter (fun x => decide (f x = f (pickBest f w l))) (w :: l)
              = w :: List.filter (fun x => decide (f x = f (pickBest f w l))) l := by
            simp [List.filter_cons, hfww]
          rw [h1, List.getLast?_cons_cons]
          rw [h2] at ih2
          exact ih2
        · have h3 : List.filter (fun x => decide (f x = f (pickBest f w l))) (a :: w :: l)
              = List.filter (fun x => decide (f x = f (pickBest f w l))) (w :: l) := by
            simp [List.filter_cons, hfa]
          rw [h3]
          exact ih2

/-- C1 counterexample: in the pool ["aaaaa", "bbbbb"] both words attain the
same (maximal) score against the single board ["aaaaa", "bbbbb"], yet the
ranker returns "bbbbb", the later of the two, not the earliest as claimed. -/
theorem chooseWord_tie_cex :
    chooseWord [["aaaaa".toList, "bbbbb".toList]] ["aaaaa".toList, "bbbbb".toList]
      = "bbbbb".toList ∧
    scoreWords "aaaaa".toList
        ([["aaaaa".toList, "bbbbb".toList]].map scoreLetters)
        [["aaaaa".toList, "bbbbb".toList]]
      = scoreWords "bbbbb".toList
        ([["aaaaa".toList, "bbbbb".toList]].map scoreLetters)
        [["aaaaa".toList, "bbbbb".toList]] ∧
    "bbbbb".toList ≠ "aaaaa".toList := by
  refine ⟨?_, ?_, by decide⟩
  · simp [chooseWord, scoreWords, scoreWord, letterContribution, scoreLetters,
      countLetters, lookupD, bumpCount, updateRow, rowStep, lt_self_iff_false]
  · simp [scoreWords, scoreWord, letterContribution, scoreLetters,
      countLetters, lookupD, bumpCount, updateRow, rowStep]

/-- C1 (amended): the ranker scans the guess pool in its given order and
keeps the current best only while it scores strictly higher than the next
word, so every pool word scores at most the returned word and, when two or
more words attain the maximal score, the one occurring latest in the guess
pool is returned. -/
theorem chooseWord_latest_max (threadWords : List (List Word)) (p : Word)
    (rest : List Word) :
    (∀ w ∈ p :: rest,
      scoreWords w (threadWords.map scoreLetters) threadWords ≤
        scoreWords (chooseWord threadWords (p :: rest))
          (threadWords.map scoreLetters) threadWords) ∧
    ((p :: rest).filter (fun w =>
        decide (scoreWords w (threadWords.map scoreLetters) threadWords =
          scoreWords (chooseWord threadWords (p :: rest))
            (threadWords.map scoreLetters) threadWords))).getLast?
      = some (chooseWord threadWords (p :: rest)) := by
  have h := pickBest_spec
    (fun w => scoreWords w (threadWords.map scoreLetters) threadWords) rest p
  simpa [chooseWord, pickBest] using h

/-- C1 witness: the amended tie-break at the concrete tied pool. -/
theorem chooseWord_latest_max_witness :
    scoreWords "aaaaa".toList
        ([["aaaaa".toList, "bbbbb".toList]].map scoreLetters)
        [["aaaaa".toList, "bbbbb".toList]] ≤
      scoreWords
        (chooseWord [["aaaaa".toList, "bbbbb".toList]]
          ["aaaaa".toList, "bbbbb".toList])
        ([["aaaaa".toList, "bbbbb".toList]].map scoreLetters)
        [["aaaaa".toList, "bbbbb".toList]] :=
  (chooseWord_latest_max [["aaaaa".toList, "bbbbb".toList]] "aaaaa".toList
    ["bbbbb".toList]).1 "aaaaa".toList (by decide)

/-- C7: in every round, the guess pool equals the concatenation of all
boards' current candidate lists exactly when the hard-mode flag is set or
the number of remaining rounds (round budget minus rounds already started)
is at most the number of boards not yet solved; otherwise the guess pool
equals the full dictionary. -/
theorem guessPoolFor_spec (hardMode : Bool) (roundNumber roundCount : Nat)
    (threadKnown : List Known) (threadWords : List (List Word))
    (allWords : List Word) :
    ((hardMode = true ∨
        (roundCount : ℤ) - (roundNumber : ℤ) ≤
          (threadKnown.countP (fun k => !k.solved) : ℤ)) →
      guessPoolFor hardMode roundNumber roundCount threadKnown threadWords allWords
        = threadWords.flatten) ∧
    (¬ (hardMode = true ∨
        (roundCount : ℤ) - (roundNumber : ℤ) ≤
          (threadKnown.countP (fun k => !k.solved) : ℤ)) →
      guessPoolFor hardMode roundNumber roundCount threadKnown threadWords allWords
        = allWords) := by
  have hcount : (threadKnown.filter (fun k => !k.solved)).length
      = threadKnown.countP (fun k => !k.solved) := by
    rw [List.countP_eq_length_filter]
  simp only [guessPoolFor]
  by_cases hb : (hardMode || decide ((roundNumber : ℤ) ≥ (roundCount : ℤ) -
      ((threadKnown.filter (fun k => !k.solved)).length : ℤ))) = true
  · rw [if_pos hb]
    refine ⟨fun _ => rfl, fun h => absurd ?_ h⟩
    simp only [Bool.or_eq_true, decide_eq_true_eq] at hb
    rcases hb with hb | hb
    · exact Or.inl hb
    · right
      omega
  · rw [if_neg hb]
    refine ⟨fun h => ?_, fun _ => rfl⟩
    exfalso
    apply hb
    simp only [Bool.or_eq_true, decide_eq_true_eq]
    rcases h with h | h
    · exact Or.inl h
    · right
      omega

/-- C7 witness: with one unsolved board, budget 6, the pool is the board
union at round index 5 (one round left) and the full dictionary at round
index 0. -/
theorem guessPoolFor_spec_witness :
    guessPoolFor false 5 6 [nothingKnown] [["crane".toList]]
      ["crane".toList, "slate".toList] = List.flatten [["crane".toList]] ∧
    guessPoolFor false 0 6 [nothingKnown] [["crane".toList]]
      ["crane".toList, "slate".toList] = ["crane".toList, "slate".toList] :=
  ⟨(guessPoolFor_spec false 5 6 [nothingKnown] [["crane".toList]]
      ["crane".toList, "slate".toList]).1 (by decide),
   (guessPoolFor_spec false 0 6 [nothingKnown] [["crane".toList]]
      ["crane".toList, "slate".toList]).2 (by decide)⟩

/-- C8: in simulation mode, a supplied solution word absent from the loaded
dictionary terminates the session with the unknown-word error at session
start, before any round runs: the outcome is `unknownWord`, produced before
any board is created or guess chosen. -/
theorem runNormal_unknownWord (allWords solutions : List Word) (hardMode : Bool)
    (roundCount threadCount : Nat) (hlen : solutions.length = threadCount)
    (hfive : ∀ s ∈ solutions, s.length = 5)
    (hbad : ∃ s ∈ solutions, s ∉ allWords) :
    ∃ w ∈ solutions, w ∉ allWords ∧
      runNormalSimulation allWords solutions hardMode roundCount threadCount
        = SessionOutcome.unknownWord w := by
  have hfind : ∃ s ∈ solutions, (!s.isEmpty && decide (s ∉ allWords)) = true := by
    obtain ⟨s, hs, hsa⟩ := hbad
    refine ⟨s, hs, ?_⟩
    have h5 := hfive s hs
    cases s with
    | nil => simp at h5
    | cons c cs => simp [List.isEmpty, hsa]
  have hsome : (solutions.find? (fun s => !s.isEmpty && decide (s ∉ allWords))).isSome := by
    rw [List.find?_isSome]
    exact hfind
  obtain ⟨w, hw⟩ := Option.isSome_iff_exists.mp hsome
  have hpw := List.find?_some hw
  have hwmem := List.mem_of_find?_eq_some hw
  have hwabs : w ∉ allWords := by
    have := (Bool.and_eq_true _ _).mp hpw
    exact of_decide_eq_true this.2
  refine ⟨w, hwmem, hwabs, ?_⟩
  unfold runNormalSimulation
  rw [if_neg (fun hcon => hcon.2 hlen), hw]

/-- C8 witness: the one-board session with solution "slate" over the
dictionary ["crane"] reports the unknown word before any round. -/
theorem runNormal_unknownWord_witness :
    ∃ w ∈ [("slate".toList : Word)], w ∉ [("crane".toList : Word)] ∧
      runNormalSimulation ["crane".toList] ["slate".toList] false 6 1
        = SessionOutcome.unknownWord w :=
  runNormal_unknownWord ["crane".toList] ["slate".toList] false 6 1
    (by decide) (by decide) (by decide)

theorem roundUpdateKnownGo_get? (guess : Word) (solutions : List Word) :
    ∀ (tk : List Known) (i j : Nat),
      (roundUpdateKnownGo guess solutions i tk).get? j =
        (tk.get? j).map (fun known =>
          if known.solved then known
          else updateKnown guess (makeGuess guess (solutions.getD (i + j) [])) known) := by
  intro tk
  induction tk with
  | nil =>
    intro i j
    simp [roundUpdateKnownGo]
  | cons k rest ih =>
    intro i j
    cases j with
    | zero => simp [roundUpdateKnownGo]
    | succ j =>
      simp only [roundUpdateKnownGo, List.get?_cons_succ]
      rw [ih (i + 1) j]
      have harg : i + 1 + j = i + (j + 1) := by omega
      rw [harg]

theorem roundUpdateWordsGo_error (newKnown : List Known) :
    ∀ (tw : List (List Word)) (i j : Nat) (k : Known),
      roundUpdateWordsGo newKnown i tw = .error (j, k) →
      (newKnown.getD j nothingKnown).solved = false ∧
        k = newKnown.getD j nothingKnown := by
  intro tw
  induction tw with
  | nil =>
    intro i j k h
    simp [roundUpdateWordsGo] at h
  | cons ws rest ih =>
    intro i j k h
    simp only [roundUpdateWordsGo] at h
    by_cases hs : (newKnown.getD i nothingKnown).solved = true
    · rw [if_pos hs] at h
      cases hgo : roundUpdateWordsGo newKnown (i + 1) rest with
      | error e =>
        rw [hgo] at h
        simp only [Except.map] at h
        cases h
        exact ih (i + 1) j k hgo
      | ok ws2 =>
        rw [hgo] at h
        simp [Except.map] at h
    · rw [if_neg hs] at h
      by_cases he : (filterWords ws (newKnown.getD i nothingKnown)).isEmpty = true
      · rw [if_pos he] at h
        simp only [Except.error.injEq, Prod.mk.injEq] at h
        obtain ⟨rfl, rfl⟩ := h
        exact ⟨Bool.eq_false_iff.mpr hs, rfl⟩
      · rw [if_neg he] at h
        cases hgo : roundUpdateWordsGo newKnown (i + 1) rest with
        | error e =>
          rw [hgo] at h
          simp only [Except.map] at h
          cases h
          exact ih (i + 1) j k hgo
        | ok ws2 =>
          rw [hgo] at h
          simp [Except.map] at h

theorem roundUpdateWordsGo_ok (newKnown : List Known) :
    ∀ (tw : List (List Word)) (i : Nat) (result : List (List Word)),
      roundUpdateWordsGo newKnown i tw = .ok result →
      ∀ j, j < tw.length → (newKnown.getD (i + j) nothingKnown).solved = true →
        result.get? j = some [] := by
  intro tw
  induction tw with
  | nil =>
    intro i result h j hj
    simp at hj
  | cons ws rest ih =>
    intro i result h j hj hsolved
    simp only [roundUpdateWordsGo] at h
    by_cases hs : (newKnown.getD i nothingKnown).solved = true
    · rw [if_pos hs] at h
      cases hgo : roundUpdateWordsGo newKnown (i + 1) rest with
      | error e =>
        rw [hgo] at h
        simp [Except.map] at h
      | ok ws2 =>
        rw [hgo] at h
        simp only [Except.map, Except.ok.injEq] at h
        subst h
        cases j with
        | zero => rfl
        | succ j =>
          have harg : i + 1 + j = i + (j + 1) := by omega
          simp only [List.get?_cons_succ]
          exact ih (i + 1) ws2 hgo j (by simpa using Nat.lt_of_succ_lt_succ hj)
            (by rw [harg]; exact hsolved)
    · rw [if_neg hs] at h
      by_cases he : (filterWords ws (newKnown.getD i nothingKnown)).isEmpty = true
      · rw [if_pos he] at h
        simp [Except.map] at h
      · rw [if_neg he] at h
        cases hgo : roundUpdateWordsGo newKnown (i + 1) rest with
        | error e =>
          rw [hgo] at h
          simp [Except.map] at h
        | ok ws2 =>
          rw [hgo] at h
          simp only [Except.map, Except.ok.injEq] at h
          subst h
          cases j with
          | zero =>
            rw [Nat.add_zero] at hsolved
            exact absurd hsolved hs
          | succ j =>
            have harg : i + 1 + j = i + (j + 1) := by omega
            simp only [List.get?_cons_succ]
            exact ih (i + 1) ws2 hgo j (by simpa using Nat.lt_of_succ_lt_succ hj)
              (by rw [harg]; exact hsolved)

/-- C9: in the multi-board round, a board whose solved flag is true is
skipped: its constraint state passes through the update unchanged, its
candidate list is replaced by the empty list in a successful word update,
and the contradiction abort can only name an unsolved board. -/
theorem solvedBoard_skipped (guess : Word) (solutions : List Word)
    (threadKnown : List Known) (threadWords : List (List Word))
    (newKnown : List Known) :
    (∀ i k, threadKnown.get? i = some k → k.solved = true →
      (roundUpdateKnown guess solutions threadKnown).get? i = some k) ∧
    (∀ result, roundUpdateWords threadWords newKnown = .ok result →
      ∀ j, j < threadWords.length → (newKnown.getD j nothingKnown).solved = true →
        result.get? j = some []) ∧
    (∀ j k, roundUpdateWords threadWords newKnown = .error (j, k) →
      (newKnown.getD j nothingKnown).solved = false) := by
  refine ⟨?_, ?_, ?_⟩
  · intro i k hk hsolved
    unfold roundUpdateKnown
    rw [roundUpdateKnownGo_get?, hk]
    simp [hsolved]
  · intro result h j hj hsolved
    exact roundUpdateWordsGo_ok newKnown threadWords 0 result h j hj
      (by simpa using hsolved)
  · intro j k h
    exact (roundUpdateWordsGo_error newKnown threadWords 0 j k h).1

/-- C9 witness: a solved board passes through unchanged and gets the empty
candidate list without an abort, while the contradiction abort names an
unsolved board. -/
theorem solvedBoard_skipped_witness :
    (roundUpdateKnown "crane".toList ["slate".toList]
        [{ nothingKnown with solved := true }]).get? 0
      = some { nothingKnown with solved := true } ∧
    ([([] : List Word)] : List (List Word)).get? 0 = some [] ∧
    (({ nothingKnown with good := [('z', 1)] } : Known)).solved = false :=
  ⟨(solvedBoard_skipped "crane".toList ["slate".toList]
      [{ nothingKnown with solved := true }] [] []).1 0
      { nothingKnown with solved := true } (by decide) (by decide),
   (solvedBoard_skipped "crane".toList ["slate".toList] []
      [["aaaaa".toList]] [{ nothingKnown with solved := true }]).2.1
      [[]] (by rfl) 0 (by decide) (by decide),
   by
    have h := (solvedBoard_skipped "crane".toList ["slate".toList] []
      [["aaaaa".toList]] [{ nothingKnown with good := [('z', 1)] }]).2.2
      0 { nothingKnown with good := [('z', 1)] } (by rfl)
    simpa using h⟩

theorem patMatch_length : ∀ (p w : List Char), patMatch p w = true → p.length ≤ w.length
  | [], w, _ => by simp
  | a :: ps, [], h => by simp [patMatch] at h
  | a :: ps, c :: cs, h => by
    simp only [patMatch, Bool.and_eq_true] at h
    simpa using patMatch_length ps cs h.2

theorem regexTest_false_of_long : ∀ (w p : List Char),
    w.length < p.length → regexTest p w = false := by
  intro w
  induction w with
  | nil =>
    intro p h
    cases p with
    | nil => simp at h
    | cons a ps => rfl
  | cons c cs ih =>
    intro p h
    simp only [regexTest]
    have h1 : patMatch p (c :: cs) = false := by
      cases hpm : patMatch p (c :: cs)
      · rfl
      · have := patMatch_length p (c :: cs) hpm
        omega
    have h2 : regexTest p cs = false := by
      apply ih
      simp only [List.length_cons] at h
      omega
    rw [h1, h2]
    rfl

theorem patMatch_iff_zip : ∀ (p w : List Char), p.length = w.length →
    (patMatch p w = true ↔ ∀ q ∈ p.zip w, q.1 = '.' ∨ q.1 = q.2) := by
  intro p
  induction p with
  | nil =>
    intro w h
    cases w with
    | nil => simp [patMatch]
    | cons c cs => simp at h
  | cons a ps ih =>
    intro w h
    cases w with
    | nil => simp at h
    | cons c cs =>
      simp only [patMatch, Bool.and_eq_true, List.zip_cons_cons, List.mem_cons,
        Bool.or_eq_true, decide_eq_true_eq]
      rw [ih cs (by simpa using h)]
      constructor
      · rintro ⟨h1, h2⟩ q (rfl | hq)
        · exact h1
        · exact h2 q hq
      · intro hall
        exact ⟨hall (a, c) (Or.inl rfl), fun q hq => hall q (Or.inr hq)⟩

theorem regexTest_eq_patMatch (p w : List Char) (h : p.length = w.length) :
    regexTest p w = patMatch p w := by
  cases w with
  | nil => rfl
  | cons c cs =>
    simp only [regexTest]
    rw [regexTest_false_of_long cs p (by simp only [List.length_cons] at h; omega),
      Bool.or_false]

/-- C3: over length-5 words and a length-5 fixed pattern, a word survives the
candidate filter exactly when it matches the fixed pattern position by
position (pattern wildcard or equal letter), meets every minimum count of
`good`, stays strictly below every bound of `bad` (so `bad['e'] = 2` admits
one 'e' and rejects two), and avoids every excluded position of
`badPositions`. -/
theorem filterWords_mem_iff (words : List Word) (known : Known) (w : Word)
    (hw : w.length = 5) (hf : known.fixed.length = 5) :
    w ∈ filterWords words known ↔
      w ∈ words ∧
      (∀ q ∈ known.fixed.zip w, q.1 = '.' ∨ q.1 = q.2) ∧
      (∀ p ∈ known.good, p.2 ≤ w.count p.1) ∧
      (∀ p ∈ known.bad, w.count p.1 < p.2) ∧
      (∀ p ∈ known.badPositions, ∀ pos ∈ p.2, w.get? pos ≠ some p.1) := by
  unfold filterWords
  rw [List.mem_filter]
  simp only [Bool.and_eq_true, List.all_eq_true, decide_eq_true_eq, countOccurrences]
  rw [regexTest_eq_patMatch _ _ (by omega), patMatch_iff_zip _ _ (by omega)]
  tauto

/-- C3 witness: with `bad['e'] = 2`, the word "crane" (one 'e') survives and
the word "crepe" (two 'e's) is rejected. -/
theorem filterWords_mem_iff_witness :
    "crane".toList ∈ filterWords ["crane".toList, "crepe".toList]
      { fixed := ".....".toList, good := [], bad := [('e', 2)],
        badPositions := [], guessResult := [], solved := false } ∧
    "crepe".toList ∉ filterWords ["crane".toList, "crepe".toList]
      { fixed := ".....".toList, good := [], bad := [('e', 2)],
        badPositions := [], guessResult := [], solved := false } :=
  ⟨(filterWords_mem_iff ["crane".toList, "crepe".toList]
      { fixed := ".....".toList, good := [], bad := [('e', 2)],
        badPositions := [], guessResult := [], solved := false }
      "crane".toList (by decide) (by decide)).mpr (by decide),
   fun h => absurd ((filterWords_mem_iff ["crane".toList, "crepe".toList]
      { fixed := ".....".toList, good := [], bad := [('e', 2)],
        badPositions := [], guessResult := [], solved := false }
      "crepe".toList (by decide) (by decide)).mp h) (by decide)⟩

theorem secondPass_close_le : ∀ (l : List (Char × Char)) (occ : Char → Nat) (L : Char),
    ((secondPass l occ).zip (l.map Prod.fst)).countP
        (fun q => decide (q.1 = LetterResult.CLOSE ∧ q.2 = L)) ≤ occ L := by
  intro l
  induction l with
  | nil =>
    intro occ L
    simp [secondPass]
  | cons p rest ih =>
    intro occ L
    obtain ⟨g, s⟩ := p
    simp only [secondPass]
    by_cases hgs : g = s
    · rw [if_pos hgs]
      have h1 := ih occ L
      simp only [List.map_cons, List.zip_cons_cons, List.countP_cons]
      simp at h1 ⊢
      omega
    · rw [if_neg hgs]
      by_cases hocc : occ g ≠ 0
      · rw [if_pos hocc]
        by_cases hgL : g = L
        · subst hgL
          have h1 := ih (fun x => if x = g then occ g - 1 else occ x) g
          simp only [List.map_cons, List.zip_cons_cons, List.countP_cons]
          simp at h1 ⊢
          omega
        · have h1 := ih (fun x => if x = g then occ g - 1 else occ x) L
          simp only [List.map_cons, List.zip_cons_cons, List.countP_cons]
          simp [Ne.symm hgL, hgL] at h1 ⊢
          omega
      · rw [if_neg hocc]
        have h1 := ih occ L
        simp only [List.map_cons, List.zip_cons_cons, List.countP_cons]
        simp at h1 ⊢
        omega

theorem secondPass_perfect_count : ∀ (l : List (Char × Char)) (occ : Char → Nat) (L : Char),
    ((secondPass l occ).zip (l.map Prod.fst)).countP
        (fun q => decide (q.1 = LetterResult.PERFECT ∧ q.2 = L))
      = l.countP (fun p => decide (p.1 = p.2 ∧ p.1 = L)) := by
  intro l
  induction l with
  | nil =>
    intro occ L
    simp [secondPass]
  | cons p rest ih =>
    intro occ L
    obtain ⟨g, s⟩ := p
    simp only [secondPass]
    by_cases hgs : g = s
    · rw [if_pos hgs]
      have h1 := ih occ L
      simp only [List.map_cons, List.zip_cons_cons, List.countP_cons]
      simp [hgs] at h1 ⊢
      omega
    · rw [if_neg hgs]
      by_cases hocc : occ g ≠ 0
      · rw [if_pos hocc]
        have h1 := ih (fun x => if x = g then occ g - 1 else occ x) L
        simp only [List.map_cons, List.zip_cons_cons, List.countP_cons]
        simp [hgs] at h1 ⊢
        omega
      · rw [if_neg hocc]
        have h1 := ih occ L
        simp only [List.map_cons, List.zip_cons_cons, List.countP_cons]
        simp [hgs] at h1 ⊢
        omega

theorem unclaimed_eq_countP : ∀ (l : List (Char × Char)) (f : Char → Nat) (L : Char),
    (l.foldl (fun occ p => if p.1 ≠ p.2 then bumpFn occ p.2 else occ) f) L
      = f L + l.countP (fun p => decide (p.1 ≠ p.2 ∧ p.2 = L)) := by
  intro l
  induction l with
  | nil =>
    intro f L
    simp
  | cons p rest ih =>
    intro f L
    obtain ⟨a, b⟩ := p
    simp only [List.foldl_cons, List.countP_cons]
    by_cases hab : a ≠ b
    · rw [if_pos hab]
      have h1 := ih (bumpFn f b) L
      by_cases hbL : b = L
      · subst hbL
        simp only [bumpFn] at h1
        simp [hab] at h1 ⊢
        omega
      · simp only [bumpFn] at h1
        simp [hab, hbL, Ne.symm hbL] at h1 ⊢
        omega
    · rw [if_neg hab]
      have h1 := ih f L
      simp [hab] at h1 ⊢
      omega

theorem countP_snd_partition : ∀ (l : List (Char × Char)) (L : Char),
    l.countP (fun p => decide (p.1 = p.2 ∧ p.1 = L))
      + l.countP (fun p => decide (p.1 ≠ p.2 ∧ p.2 = L))
      = l.countP (fun p => decide (p.2 = L)) := by
  intro l
  induction l with
  | nil =>
    intro L
    simp
  | cons p rest ih =>
    intro L
    obtain ⟨a, b⟩ := p
    have hrec := ih L
    simp only [List.countP_cons]
    by_cases hab : a = b
    · subst hab
      by_cases hbL : a = L
      · subst hbL
        simp at hrec ⊢
        omega
      · simp [hbL] at hrec ⊢
        omega
    · by_cases hbL : b = L
      · subst hbL
        simp [hab] at hrec ⊢
        omega
      · simp [hab, hbL] at hrec ⊢
        omega

theorem close_at_countP_pos : ∀ (l : List (Char × Char)) (occ : Char → Nat) (k : Nat) (L : Char),
    (secondPass l occ).get? k = some LetterResult.CLOSE →
    (l.get? k).map Prod.fst = some L →
    0 < ((secondPass l occ).zip (l.map Prod.fst)).countP
        (fun q => decide (q.1 = LetterResult.CLOSE ∧ q.2 = L)) := by
  intro l
  induction l with
  | nil =>
    intro occ k L h1 h2
    simp [secondPass] at h1
  | cons p rest ih =>
    intro occ k L h1 h2
    obtain ⟨g, s⟩ := p
    simp only [secondPass] at h1 ⊢
    by_cases hgs : g = s
    · rw [if_pos hgs] at h1 ⊢
      cases k with
      | zero => simp at h1
      | succ k =>
        simp only [List.get?_cons_succ] at h1 h2
        have := ih occ k L h1 h2
        simp only [List.map_cons, List.zip_cons_cons, List.countP_cons]
        omega
    · rw [if_neg hgs] at h1 ⊢
      by_cases hocc : occ g ≠ 0
      · rw [if_pos hocc] at h1 ⊢
        cases k with
        | zero =>
          have hgL : g = L := by simpa using h2
          simp only [List.map_cons, List.zip_cons_cons, List.countP_cons]
          simp [hgL]
        | succ k =>
          simp only [List.get?_cons_succ] at h1 h2
          have := ih _ k L h1 h2
          simp only [List.map_cons, List.zip_cons_cons, List.countP_cons]
          omega
      · rw [if_neg hocc] at h1 ⊢
        cases k with
        | zero => simp at h1
        | succ k =>
          simp only [List.get?_cons_succ] at h1 h2
          have := ih occ k L h1 h2
          simp only [List.map_cons, List.zip_cons_cons, List.countP_cons]
          omega

theorem secondPass_leftmost : ∀ (l : List (Char × Char)) (occ : Char → Nat) (i j : Nat) (L : Char),
    i < j →
    (l.get? i).map Prod.fst = some L →
    (l.get? j).map Prod.fst = some L →
    (secondPass l occ).get? i ≠ some LetterResult.PERFECT →
    (secondPass l occ).get? j = some LetterResult.CLOSE →
    (secondPass l occ).get? i = some LetterResult.CLOSE := by
  intro l
  induction l with
  | nil =>
    intro occ i j L hij hgi hgj hni hj
    simp at hgi
  | cons p rest ih =>
    intro occ i j L hij hgi hgj hni hj
    obtain ⟨g, s⟩ := p
    simp only [secondPass] at hni hj ⊢
    by_cases hgs : g = s
    · rw [if_pos hgs] at hni hj ⊢
      cases i with
      | zero => simp at hni
      | succ i =>
        obtain ⟨j, rfl⟩ : ∃ j2, j = j2 + 1 := ⟨j - 1, by omega⟩
        simp only [List.get?_cons_succ] at hni hj hgi hgj ⊢
        exact ih occ i j L (by omega) hgi hgj hni hj
    · rw [if_neg hgs] at hni hj ⊢
      by_cases hocc : occ g ≠ 0
      · rw [if_pos hocc] at hni hj ⊢
        cases i with
        | zero => rfl
        | succ i =>
          obtain ⟨j, rfl⟩ : ∃ j2, j = j2 + 1 := ⟨j - 1, by omega⟩
          simp only [List.get?_cons_succ] at hni hj hgi hgj ⊢
          exact ih _ i j L (by omega) hgi hgj hni hj
      · rw [if_neg hocc] at hni hj ⊢
        cases i with
        | zero =>
          exfalso
          have hgL : g = L := by simpa using hgi
          obtain ⟨j, rfl⟩ : ∃ j2, j = j2 + 1 := ⟨j - 1, by omega⟩
          simp only [List.get?_cons_succ] at hj hgj
          have hpos := close_at_countP_pos rest occ j L hj hgj
          have hle := secondPass_close_le rest occ L
          subst hgL
          omega
        | succ i =>
          obtain ⟨j, rfl⟩ : ∃ j2, j = j2 + 1 := ⟨j - 1, by omega⟩
          simp only [List.get?_cons_succ] at hni hj hgi hgj ⊢
          exact ih occ i j L (by omega) hgi hgj hni hj

/-- C2: for five-letter guess and solution and any letter L, the combined
number of PERFECT and CLOSE positions whose guess letter is L never exceeds
the occurrences of L in the solution, and among non-PERFECT positions
sharing the same guess letter the CLOSE credit goes to the leftmost
positions first (a later CLOSE forces every earlier non-PERFECT position
with the same letter to be CLOSE as well). -/
theorem makeGuess_duplicate_safe (guess solution : Word) (L : Char)
    (hg : guess.length = 5) (hs : solution.length = 5) :
    (((makeGuess guess solution).zip guess).countP
        (fun q => decide (q.1 = LetterResult.PERFECT ∧ q.2 = L))
      + ((makeGuess guess solution).zip guess).countP
        (fun q => decide (q.1 = LetterResult.CLOSE ∧ q.2 = L))
      ≤ solution.count L) ∧
    (∀ i j, i < j →
      guess.get? i = some L → guess.get? j = some L →
      (makeGuess guess solution).get? i ≠ some LetterResult.PERFECT →
      (makeGuess guess solution).get? j = some LetterResult.CLOSE →
      (makeGuess guess solution).get? i = some LetterResult.CLOSE) := by
  have hmapfst : (guess.zip solution).map Prod.fst = guess :=
    List.map_fst_zip _ _ (by omega)
  have hmapsnd : (guess.zip solution).map Prod.snd = solution :=
    List.map_snd_zip _ _ (by omega)
  constructor
  · have hperf := secondPass_perfect_count (guess.zip solution)
      (unclaimedOccurrences guess solution) L
    have hclose := secondPass_close_le (guess.zip solution)
      (unclaimedOccurrences guess solution) L
    have hunc : unclaimedOccurrences guess solution L
        = (guess.zip solution).countP (fun p => decide (p.1 ≠ p.2 ∧ p.2 = L)) := by
      have h0 := unclaimed_eq_countP (guess.zip solution) (fun _ => 0) L
      simpa [unclaimedOccurrences] using h0
    have hpart := countP_snd_partition (guess.zip solution) L
    have hcount : (guess.zip solution).countP (fun p => decide (p.2 = L))
        = solution.count L := by
      conv_rhs => rw [← hmapsnd]
      rw [List.count, List.countP_map]
      apply List.countP_congr
      intro p hp
      simp [Function.comp]
    have hzip_eq : (makeGuess guess solution).zip guess
        = (secondPass (guess.zip solution) (unclaimedOccurrences guess solution)).zip
            ((guess.zip solution).map Prod.fst) := by
      rw [hmapfst]
      rfl
    rw [hzip_eq]
    omega
  · intro i j hij hgi hgj hni hj
    have hfst : ∀ k, ((guess.zip solution).get? k).map Prod.fst = guess.get? k := by
      intro k
      conv_rhs => rw [← hmapfst]
      rw [List.get?_map]
    exact secondPass_leftmost (guess.zip solution) _ i j L hij
      (by rw [hfst]; exact hgi) (by rw [hfst]; exact hgj) hni hj

/-- C2 witness: guess "speed" against solution "erase" at the letter 'e'
(one PERFECT/CLOSE credit per solution occurrence, and position 2 takes the
CLOSE credit before position 3). -/
theorem makeGuess_duplicate_safe_witness :
    (((makeGuess "speed".toList "erase".toList).zip "speed".toList).countP
        (fun q => decide (q.1 = LetterResult.PERFECT ∧ q.2 = 'e'))
      + ((makeGuess "speed".toList "erase".toList).zip "speed".toList).countP
        (fun q => decide (q.1 = LetterResult.CLOSE ∧ q.2 = 'e'))
      ≤ "erase".toList.count 'e') ∧
    (makeGuess "speed".toList "erase".toList).get? 2 = some LetterResult.CLOSE :=
  ⟨(makeGuess_duplicate_safe "speed".toList "erase".toList 'e'
      (by decide) (by decide)).1,
   (makeGuess_duplicate_safe "speed".toList "erase".toList 'e'
      (by decide) (by decide)).2 2 3 (by decide) (by decide) (by decide)
      (by decide) (by decide)⟩

theorem lookupD_mapped (keys : List Char) (f : Char → Nat) (L : Char) :
    lookupD (keys.map (fun l => (l, f l))) L 0 = if L ∈ keys then f L else 0 := by
  induction keys with
  | nil => simp [lookupD]
  | cons k rest ih =>
    simp only [List.map_cons, lookupD, List.mem_cons]
    by_cases hk : k = L
    · subst hk
      simp
    · rw [if_neg hk, ih]
      by_cases hL : L ∈ rest
      · simp [hL]
      · simp [hL, Ne.symm hk]

theorem mem_dedupFirstAux : ∀ (l seen : List Char) (c : Char),
    c ∈ dedupFirstAux seen l ↔ c ∈ l ∧ c ∉ seen := by
  intro l
  induction l with
  | nil =>
    intro seen c
    simp [dedupFirstAux]
  | cons a rest ih =>
    intro seen c
    simp only [dedupFirstAux]
    by_cases ha : a ∈ seen
    · rw [if_pos ha, ih]
      simp only [List.mem_cons]
      constructor
      · rintro ⟨h1, h2⟩
        exact ⟨Or.inr h1, h2⟩
      · rintro ⟨h1 | h1, h2⟩
        · subst h1
          exact absurd ha h2
        · exact ⟨h1, h2⟩
    · rw [if_neg ha]
      simp only [List.mem_cons, ih]
      constructor
      · rintro (rfl | ⟨h1, h2⟩)
        · exact ⟨Or.inl rfl, ha⟩
        · exact ⟨Or.inr h1, fun hs => h2 (Or.inr hs)⟩
      · rintro ⟨rfl | h1, h2⟩
        · exact Or.inl rfl
        · by_cases hca : c = a
          · exact Or.inl hca
          · exact Or.inr ⟨h1, by simp [hca, h2]⟩

theorem mem_dedupFirst (l : List Char) (c : Char) : c ∈ dedupFirst l ↔ c ∈ l := by
  unfold dedupFirst
  rw [mem_dedupFirstAux]
  simp

theorem lookupD_append_of_mem (m1 m2 : List (Char × Nat)) (L : Char) (d : Nat)
    (h : L ∈ m1.map Prod.fst) : lookupD (m1 ++ m2) L d = lookupD m1 L d := by
  induction m1 with
  | nil => simp at h
  | cons p rest ih =>
    obtain ⟨k, v⟩ := p
    simp only [List.cons_append, lookupD]
    by_cases hk : k = L
    · simp [hk]
    · rw [if_neg hk, if_neg hk]
      apply ih
      simp only [List.map_cons, List.mem_cons] at h
      rcases h with h | h
      · exact absurd h.symm hk
      · exact h

theorem lookupD_map_keyed (m : List (Char × Nat)) (h2 : Char → Nat → Nat) (L : Char)
    (hmem : L ∈ m.map Prod.fst) :
    lookupD (m.map (fun p => (p.1, h2 p.1 p.2))) L 0 = h2 L (lookupD m L 0) := by
  induction m with
  | nil => simp at hmem
  | cons p rest ih =>
    obtain ⟨k, v⟩ := p
    simp only [List.map_cons, lookupD]
    by_cases hk : k = L
    · subst hk
      simp
    · rw [if_neg hk, if_neg hk]
      apply ih
      simp only [List.map_cons, List.mem_cons] at hmem
      rcases hmem with h | h
      · exact absurd h.symm hk
      · exact h

theorem mergeGood_mono (oldGood newGood : List (Char × Nat)) (L : Char) :
    lookupD oldGood L 0 ≤ lookupD (mergeGood oldGood newGood) L 0 := by
  unfold mergeGood
  rw [lookupD_mapped]
  by_cases hL : L ∈ dedupFirst (oldGood.map Prod.fst ++ newGood.map Prod.fst)
  · rw [if_pos hL]
    exact le_max_left _ _
  · rw [if_neg hL]
    have hnot : L ∉ oldGood.map Prod.fst := by
      intro hmem
      exact hL ((mem_dedupFirst _ _).mpr (List.mem_append.mpr (Or.inl hmem)))
    rw [lookupD_of_not_mem _ _ _ hnot]

theorem mergeBad_mono (oldBad : List (Char × Nat)) (newBad : List Char)
    (goodLetters oldGood : List (Char × Nat))
    (hinv : ∀ p ∈ oldBad, p.2 ≤ lookupD oldGood p.1 0 + 1)
    (hg : ∀ L, lookupD oldGood L 0 ≤ lookupD goodLetters L 0)
    (L : Char) (hmem : L ∈ oldBad.map Prod.fst) :
    lookupD oldBad L 0 ≤ lookupD (mergeBad oldBad newBad goodLetters) L 0 := by
  unfold mergeBad
  rw [lookupD_append_of_mem _ _ _ _ (by simpa [List.map_map, Function.comp] using hmem),
    lookupD_map_keyed oldBad
      (fun k v => if k ∈ newBad then lookupD goodLetters k 0 + 1 else v) L hmem]
  by_cases hLb : L ∈ newBad
  · rw [if_pos hLb]
    rcases lookupD_mem_or oldBad L 0 with h | h
    · omega
    · have h1 : lookupD oldBad L 0 ≤ lookupD oldGood L 0 + 1 := hinv _ h
      have h2 := hg L
      omega
  · rw [if_neg hLb]

theorem updateLoop_knownFixed (guess oldFixed : List Char) :
    ∀ (response : List LetterResult) (i : Nat) (acc : UpdAcc),
      (updateLoop guess oldFixed i response acc).knownFixed
        = acc.knownFixed ++ buildFixed guess oldFixed i response := by
  intro response
  induction response with
  | nil =>
    intro i acc
    simp [updateLoop, buildFixed]
  | cons r rest ih =>
    intro i acc
    cases r with
    | PERFECT =>
      simp only [updateLoop, buildFixed]
      rw [ih]
      simp
    | CLOSE =>
      simp only [updateLoop, buildFixed]
      rw [ih]
      simp
    | WRONG =>
      simp only [updateLoop, buildFixed]
      rw [ih]
      simp

theorem buildFixed_get? (guess oldFixed : List Char) :
    ∀ (response : List LetterResult) (i k : Nat),
      (buildFixed guess oldFixed i response).get? k
        = (response.get? k).map (fun r =>
            match r with
            | LetterResult.PERFECT => guess.getD (i + k) '*'
            | _ => oldFixed.getD (i + k) '*') := by
  intro response
  induction response with
  | nil =>
    intro i k
    simp [buildFixed]
  | cons r rest ih =>
    intro i k
    cases k with
    | zero => simp [buildFixed]
    | succ k =>
      simp only [buildFixed, List.get?_cons_succ]
      rw [ih (i + 1) k]
      have harg : i + 1 + k = i + (k + 1) := by omega
      rw [harg]

/-- C4 (amended): over five-letter guesses, five-element results and a
previous state whose bad bounds satisfy the tracker's own invariant
`bad[letter] ≤ good[letter] + 1` (true of every state the tracker produces),
the update keeps every confirmed fixed position confirmed, never decreases a
good count, and never decreases an existing bad bound. -/
theorem updateKnown_monotone (guess : Word) (response : List LetterResult)
    (prev : Known) (hg : guess.length = 5) (hr : response.length = 5)
    (hf : prev.fixed.length = 5) (hguess : ∀ c ∈ guess, c ≠ '.')
    (hinv : ∀ p ∈ prev.bad, p.2 ≤ lookupD prev.good p.1 0 + 1) :
    (∀ i, i < 5 → prev.fixed.get? i ≠ some '.' →
      (updateKnown guess response prev).fixed.get? i ≠ some '.') ∧
    (∀ L, lookupD prev.good L 0 ≤ lookupD (updateKnown guess response prev).good L 0) ∧
    (∀ L, L ∈ prev.bad.map Prod.fst →
      lookupD prev.bad L 0 ≤ lookupD (updateKnown guess response prev).bad L 0) := by
  have hgood : ∀ L,
      lookupD prev.good L 0 ≤ lookupD (updateKnown guess response prev).good L 0 := by
    intro L
    exact mergeGood_mono prev.good _ L
  refine ⟨?_, hgood, ?_⟩
  · intro i hi hprev
    have hfix : (updateKnown guess response prev).fixed
        = buildFixed guess prev.fixed 0 response := by
      show (updateLoop guess prev.fixed 0 response
        { knownFixed := [], newGood := [], newBad := [],
          badPositions := prev.badPositions,
          guessResult := prev.guessResult }).knownFixed = _
      rw [updateLoop_knownFixed]
      rfl
    have hilt : i < response.length := by omega
    have hri : response.get? i = some (response.get ⟨i, hilt⟩) := List.get?_eq_get hilt
    rw [hfix, buildFixed_get?, hri]
    intro heq
    rw [Option.map_some', Option.some_inj] at heq
    simp only [Nat.zero_add] at heq
    cases hrr : response.get ⟨i, hilt⟩ with
    | PERFECT =>
      simp only [hrr] at heq
      have higl : i < guess.length := by omega
      rw [List.getD_eq_get _ _ higl] at heq
      exact hguess _ (List.get_mem _ _ _) heq
    | CLOSE =>
      simp only [hrr] at heq
      have hifl : i < prev.fixed.length := by omega
      rw [List.getD_eq_get _ _ hifl] at heq
      apply hprev
      rw [List.get?_eq_get hifl, heq]
    | WRONG =>
      simp only [hrr] at heq
      have hifl : i < prev.fixed.length := by omega
      rw [List.getD_eq_get _ _ hifl] at heq
      apply hprev
      rw [List.get?_eq_get hifl, heq]
  · intro L hmem
    exact mergeBad_mono prev.bad _ _ prev.good hinv hgood L hmem

/-- C4 counterexample: for the (unreachable) previous state with
`bad['e'] = 5` and no good count for 'e', marking 'e' absent again rebuilds
its bound as `good + 1 = 1 < 5`, so over arbitrary previous states the bad
bound does decrease, refuting the claim as stated. -/
theorem updateKnown_bad_cex :
    ¬ (lookupD badBoundKnown.bad 'e' 0 ≤
      lookupD (updateKnown "eabcd".toList
        [LetterResult.WRONG, LetterResult.WRONG, LetterResult.WRONG,
         LetterResult.WRONG, LetterResult.WRONG] badBoundKnown).bad 'e' 0) := by
  decide

/-- C4 witness: a concrete reachable state (bad bound = good + 1) keeps its
fixed letter, its good count and its bad bound through another update. -/
theorem updateKnown_monotone_witness :
    ((updateKnown "crane".toList
        [LetterResult.PERFECT, LetterResult.WRONG, LetterResult.WRONG,
         LetterResult.WRONG, LetterResult.WRONG] sampleKnown).fixed.get? 0
      ≠ some '.') ∧
    (lookupD sampleKnown.good 'c' 0 ≤
      lookupD (updateKnown "crane".toList
        [LetterResult.PERFECT, LetterResult.WRONG, LetterResult.WRONG,
         LetterResult.WRONG, LetterResult.WRONG] sampleKnown).good 'c' 0) ∧
    (lookupD sampleKnown.bad 'e' 0 ≤
      lookupD (updateKnown "crane".toList
        [LetterResult.PERFECT, LetterResult.WRONG, LetterResult.WRONG,
         LetterResult.WRONG, LetterResult.WRONG] sampleKnown).bad 'e' 0) :=
  ⟨(updateKnown_monotone "crane".toList
      [LetterResult.PERFECT, LetterResult.WRONG, LetterResult.WRONG,
       LetterResult.WRONG, LetterResult.WRONG] sampleKnown
      (by decide) (by decide) (by decide) (by decide) (by decide)).1 0
      (by decide) (by decide),
   (updateKnown_monotone "crane".toList
      [LetterResult.PERFECT, LetterResult.WRONG, LetterResult.WRONG,
       LetterResult.WRONG, LetterResult.WRONG] sampleKnown
      (by decide) (by decide) (by decide) (by decide) (by decide)).2.1 'c',
   (updateKnown_monotone "crane".toList
      [LetterResult.PERFECT, LetterResult.WRONG, LetterResult.WRONG,
       LetterResult.WRONG, LetterResult.WRONG] sampleKnown
      (by decide) (by decide) (by decide) (by decide) (by decide)).2.2 'e'
      (by decide)⟩

theorem appendExt_trans {α : Type} {a b c : List α}
    (h1 : ∃ e, b = a ++ e) (h2 : ∃ e, c = b ++ e) : ∃ e, c = a ++ e := by
  obtain ⟨e1, rfl⟩ := h1
  obtain ⟨e2, rfl⟩ := h2
  exact ⟨e1 ++ e2, List.append_assoc _ _ _⟩

theorem updateLoopS_store (guess oldFixed : List Char) :
    ∀ (response : List LetterResult) (i : Nat) (acc : UpdAccS),
      ∃ ext, (updateLoopS guess oldFixed i response acc).store = acc.store ++ ext := by
  intro response
  induction response with
  | nil =>
    intro i acc
    exact ⟨[], by simp [updateLoopS]⟩
  | cons r rest ih =>
    intro i acc
    cases r with
    | PERFECT =>
      simp only [updateLoopS]
      exact appendExt_trans ⟨[], by simp⟩ (ih (i + 1) _)
    | CLOSE =>
      simp only [updateLoopS]
      exact appendExt_trans ⟨_, rfl⟩ (ih (i + 1) _)
    | WRONG =>
      simp only [updateLoopS]
      exact appendExt_trans ⟨[], by simp⟩ (ih (i + 1) _)

/-- C10: the constraint tracker's update never mutates the previous state.
In the store-passing rendering, where the `Set`s of excluded positions are
store cells and the CLOSE branch allocates a fresh copy before adding
(`new Set(badPositions[nextLetter]).add(i)`), the update only appends cells:
the store before the call survives as an unchanged prefix, so every cell the
previous state references still holds its old contents.  The good and bad
maps and the fixed pattern are rebuilt as fresh values in this rendering,
exactly as the source rebuilds fresh objects, so the previous state's fields
are observationally unchanged after the call. -/
theorem updateKnownS_no_mutation (guess : Word) (response : List LetterResult)
    (prev : KnownS) (store : List (List Nat)) :
    ((updateKnownS guess response prev store).2).take store.length = store ∧
    store.length ≤ ((updateKnownS guess response prev store).2).length := by
  obtain ⟨ext, hext⟩ := updateLoopS_store guess prev.fixed response 0
    { knownFixed := [], newGood := [], newBad := [],
      badPositions := prev.badPositions, guessResult := prev.guessResult,
      store := store }
  have h2 : (updateKnownS guess response prev store).2 = store ++ ext := hext
  rw [h2]
  constructor
  · exact List.take_left store ext
  · simp

end WordleTool
